import Mathlib

/-!
Shallow embedding of the `distribution_select` Rust crate (src/lib.rs):
a weighted random-selection structure `Distribution<T>` backed by a
`BTreeMap<OrderedFloat<f64>, T>` cumulative index (`distro`), a running
`total_weight : f64`, and a `BTreeMap<T, f64>` table (`originals`) recording
the weight each value was most recently added with.

Modelling choices:
* `f64` values are modelled by `F64`: either a finite rational (`F64.fin q`)
  or `F64.nan`.  Arithmetic on finite values is exact rational arithmetic
  (IEEE rounding is not modelled); `nan` is absorbing for addition.
* The `OrderedFloat` total order (NaN greater than every finite value) is
  the `LinearOrder F64` instance, used by the map operations.  The raw Rust
  `f64` comparisons, which are false whenever NaN is involved, are the
  Boolean functions `fgt`, `flt`, `fle`.
* `BTreeMap` is modelled as an association list kept sorted by key, with
  `mapInsert` (insert-or-replace) and `mapFind` (exact lookup).
  `closest_key_below` takes the last entry with key at most the target,
  exactly `tree.range(..=OrderedFloat(target)).rev().next()`.
* A Rust panic (a failed `assert`, `gen_range` on an empty range, or
  `unwrap` of `None`) is modelled by `Option.none`, or by a dedicated
  `PickResult` constructor inside `random_pick`.
* Randomness: `random_pick` receives the number drawn by
  `rng.gen_range(0.0..total_weight)` as an explicit rational parameter `r`;
  theorems quantify over every in-range `r`.  `rand` panics when the
  requested range is empty, i.e. unless `0.0 < total_weight` holds as a raw
  `f64` comparison; that panic is the `genRangePanic` outcome.
-/

namespace DistSel

/-- Model of `f64`: a finite value (exact rational) or NaN. -/
inductive F64 where
  | fin : ℚ → F64
  | nan : F64
  deriving DecidableEq

/-- The `OrderedFloat` view of an `F64`: NaN is greater than every finite value. -/
def F64.toWT : F64 → WithTop ℚ
  | F64.fin q => (q : WithTop ℚ)
  | F64.nan => ⊤

/-- The total order `OrderedFloat<f64>` imposes on keys: finite values are
ordered as rationals and NaN is the top element. -/
instance : LinearOrder F64 :=
  LinearOrder.lift' F64.toWT (by
    intro a b h
    cases a <;> cases b <;> simp [F64.toWT] at h <;> simp [h])

/-- Rust `a > b` on `f64`: false whenever NaN is involved. -/
def fgt : F64 → F64 → Bool
  | F64.fin a, F64.fin b => decide (b < a)
  | _, _ => false

/-- Rust `a < b` on `f64`: false whenever NaN is involved. -/
def flt : F64 → F64 → Bool
  | F64.fin a, F64.fin b => decide (a < b)
  | _, _ => false

/-- Rust `a <= b` on `f64`: false whenever NaN is involved. -/
def fle : F64 → F64 → Bool
  | F64.fin a, F64.fin b => decide (a ≤ b)
  | _, _ => false

/-- Rust `a + b` on `f64` (exact on finite values; NaN absorbs). -/
def fadd : F64 → F64 → F64
  | F64.fin a, F64.fin b => F64.fin (a + b)
  | _, _ => F64.nan

variable {T : Type} [LinearOrder T] {α : Type} {κ : Type}

/-- `BTreeMap::insert` on a key-sorted association list: place the new
entry at its ordered position, replacing an entry with an equal key. -/
def mapInsert [LinearOrder κ] : List (κ × α) → κ → α → List (κ × α)
  | [], k, v => [(k, v)]
  | (k0, v0) :: rest, k, v =>
    if k < k0 then (k, v) :: (k0, v0) :: rest
    else if k = k0 then (k, v) :: rest
    else (k0, v0) :: mapInsert rest k v

/-- `BTreeMap::get`: exact-key lookup. -/
def mapFind [LinearOrder κ] : List (κ × α) → κ → Option α
  | [], _ => none
  | (k0, v0) :: rest, k => if k = k0 then some v0 else mapFind rest k

/-- `closest_key_below` from src/lib.rs:
`tree.range(..=OrderedFloat(target)).rev().next().map(|(k,_)| *k)`,
i.e. the greatest (= last in sorted order) key that is at most `target`,
under the `OrderedFloat` total order. -/
def closest_key_below (tree : List (F64 × α)) (target : F64) : Option F64 :=
  ((tree.filter (fun p => decide (p.1 ≤ target))).getLast?).map Prod.fst

/-- The `Distribution<T>` struct from src/lib.rs. -/
structure Distribution (T : Type) where
  distro : List (F64 × T)
  total_weight : F64
  originals : List (T × F64)
  deriving DecidableEq

/-- `Distribution::new()`: empty index, zero total weight, empty originals. -/
def Distribution.new : Distribution T :=
  { distro := [], total_weight := F64.fin 0, originals := [] }

/-- `Distribution::add`: `assert!(weight > 0.0)` (panic modelled as `none`),
then insert the value at key `total_weight`, grow `total_weight`, and record
the value with its weight in `originals` (overwriting a prior entry). -/
def add (d : Distribution T) (value : T) (weight : F64) : Option (Distribution T) :=
  if fgt weight (F64.fin 0) then
    some { distro := mapInsert d.distro d.total_weight value,
           total_weight := fadd d.total_weight weight,
           originals := mapInsert d.originals value weight }
  else none

/-- Outcome of `Distribution::random_pick`: a value, or one of the three
panic sites of the source (`gen_range` on an empty range, `unwrap` of the
floor-query result, `unwrap` of the index lookup). -/
inductive PickResult (T : Type) where
  | ok : T → PickResult T
  | genRangePanic : PickResult T
  | noKeyPanic : PickResult T
  | noValuePanic : PickResult T
  deriving DecidableEq

/-- `Distribution::random_pick`, with the drawn number `r` made explicit.
`rng.gen_range(0.0..total_weight)` panics unless `0.0 < total_weight` holds
as a raw `f64` comparison; then the floor query and the index lookup are
each `unwrap`ped. -/
def random_pick (d : Distribution T) (r : ℚ) : PickResult T :=
  if flt (F64.fin 0) d.total_weight then
    match closest_key_below d.distro (F64.fin r) with
    | none => PickResult.noKeyPanic
    | some k =>
      match mapFind d.distro k with
      | none => PickResult.noValuePanic
      | some v => PickResult.ok v
  else PickResult.genRangePanic

/-- The loop body of `Distribution::without`: walk the `originals` entries in
table order, re-adding each value not contained in `removals` to `result`
through the ordinary `add` path (whose failed assert is modelled as `none`). -/
def withoutFrom (removals : List T) : List (T × F64) → Distribution T → Option (Distribution T)
  | [], result => some result
  | (value, weight) :: rest, result =>
    if removals.contains value then withoutFrom removals rest result
    else
      match add result value weight with
      | none => none
      | some result' => withoutFrom removals rest result'

/-- `Distribution::without`: rebuild a brand-new distribution from the
`originals` entries whose value is not excluded. -/
def without (self : Distribution T) (removals : List T) : Option (Distribution T) :=
  withoutFrom removals self.originals Distribution.new

/-- State-threaded reading of the `without` loop: the state is the pair
(receiver, result).  The loop body of the source only reads the receiver
(it iterates `self.originals`) and only mutates `result`, so the receiver
component is threaded through unchanged. -/
def withoutCallFrom (removals : List T) :
    List (T × F64) → Distribution T × Distribution T → Option (Distribution T × Distribution T)
  | [], st => some st
  | (value, weight) :: rest, st =>
    if removals.contains value then withoutCallFrom removals rest st
    else
      match add st.2 value weight with
      | none => none
      | some result' => withoutCallFrom removals rest (st.1, result')

/-- A call `self.without(removals)` viewed as acting on the whole state:
returns the receiver as left component and the freshly built result as
right component. -/
def without_call (self : Distribution T) (removals : List T) :
    Option (Distribution T × Distribution T) :=
  withoutCallFrom removals self.originals (self, Distribution.new)

/-- Run a sequence of `add` calls, propagating the first failed assert. -/
def addAll (d : Distribution T) : List (T × F64) → Option (Distribution T)
  | [] => some d
  | (value, weight) :: rest =>
    match add d value weight with
    | none => none
    | some d' => addAll d' rest

/-- Build a distribution from scratch by a sequence of `add` calls. -/
def buildList (entries : List (T × F64)) : Option (Distribution T) :=
  addAll Distribution.new entries

/-- View a list of (value, rational weight) pairs as `f64` entries. -/
def liftEntries (l : List (T × ℚ)) : List (T × F64) :=
  l.map (fun p => (p.1, F64.fin p.2))

/-- The weights of an entry list, in insertion order. -/
def wts (l : List (T × ℚ)) : List ℚ :=
  l.map Prod.snd

/-- The cumulative index produced by adding the entries of `l` in order,
starting from running total `t`: entry `i` sits at the key given by `t`
plus the sum of the weights before it. -/
def cumDistro (t : ℚ) : List (T × ℚ) → List (F64 × T)
  | [] => []
  | (value, weight) :: rest => (F64.fin t, value) :: cumDistro (t + weight) rest

/-- The interval boundaries: running totals starting at `t`, including the
final total.  `bounds t ws` has one more element than `ws`. -/
def bounds (t : ℚ) : List ℚ → List ℚ
  | [] => [t]
  | w :: ws => t :: bounds (t + w) ws

/-- The originals table produced by adding the entries of `l` in order. -/
def oMap (l : List (T × ℚ)) : List (T × F64) :=
  l.foldl (fun m p => mapInsert m p.1 (F64.fin p.2)) []

/-- The distribution reached from `new` by adding the entries of `l`
(all weights positive) in order. -/
def builtD (l : List (T × ℚ)) : Distribution T :=
  { distro := cumDistro 0 l, total_weight := F64.fin (wts l).sum, originals := oMap l }

/-- The concrete index of the floor-query test: thresholds 0.5, 1.0, 3.5,
4.8 in sorted order, with the payloads of `input_data()` in the tests. -/
def testTree : List (F64 × String) :=
  [(F64.fin (1/2 : ℚ), "b"), (F64.fin 1, "a"),
   (F64.fin (7/2 : ℚ), "c"), (F64.fin (24/5 : ℚ), "d")]

/-- The Cumulative-Index invariants after a sequence of `add` calls with the
(value, weight) entries of `l`, all weights positive: the build succeeds and
reaches `builtD l`; the index keys are pairwise distinct and strictly
increasing in insertion order; the smallest key is 0 once an item is present;
the keys are the left endpoints of the boundary list `bounds 0 (wts l)`
whose final element is the total weight, and consecutive boundaries differ
exactly by the corresponding inserted weight (so the intervals partition
`[0, total_weight)` with interval `i` of length `(wts l)[i]`). -/
def cumulativeIndexInv (l : List (T × ℚ)) : Prop :=
  buildList (liftEntries l) = some (builtD l)
  ∧ ((builtD l).distro.map Prod.fst).Pairwise (· < ·)
  ∧ (l ≠ [] → ((builtD l).distro.map Prod.fst).head? = some (F64.fin 0))
  ∧ (builtD l).distro.map Prod.fst = ((bounds 0 (wts l)).dropLast).map F64.fin
  ∧ (builtD l).total_weight = F64.fin (wts l).sum
  ∧ (bounds 0 (wts l)).getLast? = some (wts l).sum
  ∧ ∀ i b0 b1 w, (bounds 0 (wts l))[i]? = some b0 → (bounds 0 (wts l))[i + 1]? = some b1 →
      (wts l)[i]? = some w → b1 = b0 + w

/-- The contract of `without` on a distribution whose originals table holds
the entries of `ol` (positive weights): the call rebuilds, via the ordinary
insertion path from scratch, exactly the non-excluded entries in table
order, with their recorded weights; the total weight of the result is the
sum of the retained weights; and the originals table of the result holds
exactly the retained (value, weight) pairs. -/
def withoutSpec (d : Distribution T) (ol : List (T × ℚ)) (removals : List T) : Prop :=
  let rl := ol.filter (fun p => !(removals.contains p.1))
  without d removals = buildList (liftEntries rl)
  ∧ without d removals = some (builtD rl)
  ∧ (builtD rl).distro.map Prod.snd = rl.map Prod.fst
  ∧ (builtD rl).total_weight = F64.fin (wts rl).sum
  ∧ ∀ v w, mapFind (builtD rl).originals v = some (F64.fin w) ↔ (v, w) ∈ rl

/-- Guaranteed success of sampling on a non-empty well-formed distribution:
the index is non-empty, the `gen_range` guard passes, and for every in-range
draw the floor query returns a key, the lookup at that key returns a value
(so both `unwrap` calls are unreachable), and `random_pick` returns that
value.  Moreover `without` itself never fails on such a distribution. -/
def samplingSafe (l : List (T × ℚ)) : Prop :=
  ∃ D, buildList (liftEntries l) = some D
    ∧ D.distro ≠ []
    ∧ flt (F64.fin 0) D.total_weight = true
    ∧ (∀ r : ℚ, 0 ≤ r → r < (wts l).sum →
        ∃ k v, closest_key_below D.distro (F64.fin r) = some k
          ∧ mapFind D.distro k = some v
          ∧ random_pick D r = PickResult.ok v)
    ∧ ∀ removals : List T, ∃ Dr, without D removals = some Dr

/-- Totality of `random_pick` on a distribution built from at least one
positively weighted item: every in-range draw produces a value. -/
def pickTotality (l : List (T × ℚ)) : Prop :=
  ∃ D, buildList (liftEntries l) = some D
    ∧ ∀ r : ℚ, 0 ≤ r → r < (wts l).sum → ∃ v, random_pick D r = PickResult.ok v

/-- The floor-query contract: `closest_key_below` returns none exactly when
every key exceeds the target, and returns `k` exactly when `k` is the
greatest key that is at most the target. -/
def floorQuerySpec {β : Type} (tree : List (F64 × β)) (target : F64) : Prop :=
  (closest_key_below tree target = none ↔ ∀ k ∈ tree.map Prod.fst, target < k)
  ∧ ∀ k, closest_key_below tree target = some k ↔
      (k ∈ tree.map Prod.fst ∧ k ≤ target ∧
       ∀ k' ∈ tree.map Prod.fst, k' ≤ target → k' ≤ k)

/-- Behavior when the same value is added twice (weights `w1` then `w2`):
the Cumulative Index keeps both insertions as separate interval owners, the
originals table keeps only the latest weight, every in-range draw returns
the value (so sampling honors `w1 + w2`), and a `without` call that does not
exclude the value rebuilds it with only the latest weight `w2`. -/
def addTwiceSpec (v : T) (w1 w2 : ℚ) : Prop :=
  ∃ D, (add Distribution.new v (F64.fin w1)).bind (fun d => add d v (F64.fin w2)) = some D
    ∧ D.distro = [(F64.fin 0, v), (F64.fin w1, v)]
    ∧ D.originals = [(v, F64.fin w2)]
    ∧ D.total_weight = F64.fin (w1 + w2)
    ∧ (∀ r : ℚ, 0 ≤ r → r < w1 + w2 → random_pick D r = PickResult.ok v)
    ∧ ∀ removals : List T, removals.contains v = false →
        without D removals = some { distro := [(F64.fin 0, v)],
                                    total_weight := F64.fin w2,
                                    originals := [(v, F64.fin w2)] }

/-- Weight conservation: after all insertions the total weight is the
left-to-right (insertion-order) `fadd`-sum of the inserted weights, which in
this exact-arithmetic model is the rational sum of the weights. -/
def weightConservation (l : List (T × ℚ)) : Prop :=
  ∃ D, buildList (liftEntries l) = some D
    ∧ D.total_weight = (wts l).foldl (fun acc w => fadd acc (F64.fin w)) (F64.fin 0)
    ∧ D.total_weight = F64.fin (wts l).sum

/-! Basic facts about the `F64` order and the map operations. -/

theorem fin_le_fin {a b : ℚ} : F64.fin a ≤ F64.fin b ↔ a ≤ b :=
  WithTop.coe_le_coe

theorem fin_lt_fin {a b : ℚ} : F64.fin a < F64.fin b ↔ a < b :=
  WithTop.coe_lt_coe

theorem decide_fin_le (a b : ℚ) : decide (F64.fin a ≤ F64.fin b) = decide (a ≤ b) :=
  decide_eq_decide.mpr fin_le_fin

theorem testTree_sorted : testTree.Pairwise (fun p q => p.1 < q.1) := by
  norm_num [testTree, List.pairwise_cons, fin_lt_fin]

theorem mapInsert_append [LinearOrder κ] (l : List (κ × α)) (k : κ) (v : α)
    (h : ∀ p ∈ l, p.1 < k) : mapInsert l k v = l ++ [(k, v)] := by
  induction l with
  | nil => rfl
  | cons q rest ih =>
    obtain ⟨k0, v0⟩ := q
    have hk0 : k0 < k := h (k0, v0) (List.mem_cons_self _ _)
    simp only [mapInsert, if_neg hk0.asymm, if_neg hk0.ne', List.cons_append,
      List.cons.injEq, true_and]
    exact ih (fun p hp => h p (List.mem_cons_of_mem _ hp))

theorem mapFind_mapInsert [LinearOrder κ] (l : List (κ × α)) (k k' : κ) (v : α) :
    mapFind (mapInsert l k v) k' = if k' = k then some v else mapFind l k' := by
  induction l with
  | nil => simp [mapInsert, mapFind]
  | cons q rest ih =>
    obtain ⟨k0, v0⟩ := q
    by_cases h1 : k < k0
    · simp [mapInsert, if_pos h1, mapFind]
    · by_cases h2 : k = k0
      · subst h2
        simp only [mapInsert, if_neg h1, if_pos rfl, mapFind]
        by_cases h3 : k' = k <;> simp [h3]
      · simp only [mapInsert, if_neg h1, if_neg h2, mapFind]
        by_cases h3 : k' = k0
        · subst h3
          rw [if_pos rfl, if_neg (fun hc => h2 hc.symm), if_pos rfl]
        · rw [if_neg h3, ih, if_neg h3]

theorem mem_mapInsert [LinearOrder κ] (l : List (κ × α)) (k : κ) (v : α) (p : κ × α)
    (hp : p ∈ mapInsert l k v) : p = (k, v) ∨ p ∈ l := by
  induction l with
  | nil => simpa [mapInsert] using hp
  | cons q rest ih =>
    obtain ⟨k0, v0⟩ := q
    by_cases h1 : k < k0
    · simp only [mapInsert, if_pos h1, List.mem_cons] at hp
      simpa [List.mem_cons] using hp
    · by_cases h2 : k = k0
      · subst h2
        simp [mapInsert, h1] at hp
        rcases hp with h | h
        · exact Or.inl (by simp [h])
        · exact Or.inr (List.mem_cons_of_mem _ h)
      · simp [mapInsert, h1, h2] at hp
        rcases hp with h | h
        · exact Or.inr (by simp [h])
        · rcases ih h with h' | h'
          · exact Or.inl h'
          · exact Or.inr (List.mem_cons_of_mem _ h')

theorem mapFind_some_of_mem_keys [LinearOrder κ] (l : List (κ × α)) (k : κ)
    (hk : k ∈ l.map Prod.fst) : ∃ v, mapFind l k = some v := by
  induction l with
  | nil => simp at hk
  | cons q rest ih =>
    obtain ⟨k0, v0⟩ := q
    by_cases h : k = k0
    · exact ⟨v0, by simp [mapFind, h]⟩
    · have : k ∈ rest.map Prod.fst := by
        simpa [h] using hk
      obtain ⟨v, hv⟩ := ih this
      exact ⟨v, by simp [mapFind, h, hv]⟩

theorem mapFind_foldInsert_notmem (l : List (T × ℚ)) (init : List (T × F64)) (t : T)
    (hnot : t ∉ l.map Prod.fst) :
    mapFind (l.foldl (fun m p => mapInsert m p.1 (F64.fin p.2)) init) t = mapFind init t := by
  induction l generalizing init with
  | nil => rfl
  | cons p rest ih =>
    simp only [List.map_cons, List.mem_cons, not_or] at hnot
    simp only [List.foldl_cons]
    rw [ih _ hnot.2, mapFind_mapInsert, if_neg hnot.1]

theorem mapFind_foldInsert_mem (v : T) (w : ℚ) :
    ∀ (l : List (T × ℚ)) (init : List (T × F64)), (l.map Prod.fst).Nodup → (v, w) ∈ l →
    mapFind (l.foldl (fun m p => mapInsert m p.1 (F64.fin p.2)) init) v = some (F64.fin w) := by
  intro l
  induction l with
  | nil => intro init _ hm; simp at hm
  | cons p rest ih =>
    intro init hnd hm
    obtain ⟨v0, w0⟩ := p
    simp only [List.map_cons, List.nodup_cons] at hnd
    simp only [List.foldl_cons]
    rcases List.mem_cons.mp hm with h | h
    · obtain ⟨hv, hw⟩ := Prod.mk.injEq .. ▸ h
      subst hv; subst hw
      rw [mapFind_foldInsert_notmem rest _ v hnd.1, mapFind_mapInsert, if_pos rfl]
    · exact ih _ hnd.2 h

/-! The distribution reached by a sequence of `add` calls. -/

theorem addAll_liftEntries (l : List (T × ℚ)) :
    ∀ (d : Distribution T) (t : ℚ), (∀ p ∈ l, 0 < p.2) →
    d.total_weight = F64.fin t →
    (∀ k ∈ d.distro.map Prod.fst, k < F64.fin t) →
    addAll d (liftEntries l) =
      some { distro := d.distro ++ cumDistro t l,
             total_weight := F64.fin (t + (wts l).sum),
             originals := l.foldl (fun m p => mapInsert m p.1 (F64.fin p.2)) d.originals } := by
  induction l with
  | nil =>
    intro d t _ ht _
    obtain ⟨dd, tw, og⟩ := d
    simp only [Distribution.mk.injEq] at ht ⊢
    simp [liftEntries, addAll, cumDistro, wts, ht]
  | cons p rest ih =>
    intro d t hw ht hk
    obtain ⟨v, w⟩ := p
    have hw0 : 0 < w := hw (v, w) (List.mem_cons_self _ _)
    have hgt : fgt (F64.fin w) (F64.fin 0) = true := by
      simp [fgt, hw0]
    simp only [liftEntries, List.map_cons, addAll, add, hgt, if_true, ht]
    have hins : mapInsert d.distro (F64.fin t) v = d.distro ++ [(F64.fin t, v)] :=
      mapInsert_append _ _ _ (fun p hp => hk p.1 (List.mem_map_of_mem Prod.fst hp))
    have := ih { distro := d.distro ++ [(F64.fin t, v)],
                 total_weight := F64.fin (t + w),
                 originals := mapInsert d.originals v (F64.fin w) }
      (t + w)
      (fun p hp => hw p (List.mem_cons_of_mem _ hp))
      rfl
      (by
        intro k hkm
        simp only [List.map_append, List.mem_append, List.map_cons, List.map_nil,
          List.mem_singleton] at hkm
        rcases hkm with h | h
        · exact lt_trans (hk k h) (fin_lt_fin.mpr (by linarith))
        · rw [h]; exact fin_lt_fin.mpr (by linarith))
    rw [hins]
    simp only [fadd]
    simp only [liftEntries] at this
    rw [this]
    simp only [Option.some.injEq, Distribution.mk.injEq]
    refine ⟨by rw [List.append_assoc]; rfl, ?_, rfl⟩
    simp [wts, add_assoc]

theorem buildList_builtD (l : List (T × ℚ)) (hw : ∀ p ∈ l, 0 < p.2) :
    buildList (liftEntries l) = some (builtD l) := by
  have h := addAll_liftEntries l Distribution.new 0 hw rfl (by simp [Distribution.new])
  simpa [buildList, builtD, Distribution.new, oMap] using h

/-! Shape of the cumulative index and of the interval boundaries. -/

theorem cumDistro_map_snd (t : ℚ) (l : List (T × ℚ)) :
    (cumDistro t l).map Prod.snd = l.map Prod.fst := by
  induction l generalizing t with
  | nil => rfl
  | cons p rest ih =>
    obtain ⟨v, w⟩ := p
    simp [cumDistro, ih]

theorem bounds_ne_nil (t : ℚ) (ws : List ℚ) : bounds t ws ≠ [] := by
  cases ws <;> simp [bounds]

theorem bounds_head (t : ℚ) (ws : List ℚ) : (bounds t ws).head? = some t := by
  cases ws <;> rfl

theorem bounds_getElem_zero (t : ℚ) (ws : List ℚ) : (bounds t ws)[0]? = some t := by
  cases ws <;> simp [bounds]

theorem cumDistro_map_fst (t : ℚ) (l : List (T × ℚ)) :
    (cumDistro t l).map Prod.fst = ((bounds t (wts l)).dropLast).map F64.fin := by
  induction l generalizing t with
  | nil => simp [cumDistro, wts, bounds]
  | cons p rest ih =>
    obtain ⟨v, w⟩ := p
    simp only [cumDistro, wts, List.map_cons, bounds]
    rw [List.dropLast_cons_of_ne_nil (bounds_ne_nil _ _)]
    simp only [List.map_cons, List.cons.injEq, true_and]
    exact ih (t + w)

theorem bounds_getLast? (t : ℚ) (ws : List ℚ) :
    (bounds t ws).getLast? = some (t + ws.sum) := by
  induction ws generalizing t with
  | nil => simp [bounds]
  | cons w ws ih =>
    simp only [bounds]
    rcases hb : bounds (t + w) ws with _ | ⟨b, bs⟩
    · exact absurd hb (bounds_ne_nil _ _)
    · rw [List.getLast?_cons_cons, ← hb, ih]
      simp [add_assoc]

theorem bounds_chain (t : ℚ) (ws : List ℚ) (hw : ∀ w ∈ ws, 0 < w) :
    (bounds t ws).Chain' (· < ·) := by
  induction ws generalizing t with
  | nil => simp [bounds]
  | cons w ws ih =>
    simp only [bounds]
    refine (ih (t + w) (fun x hx => hw x (List.mem_cons_of_mem _ hx))).cons' ?_
    intro y hy
    rw [bounds_head] at hy
    have hw0 : 0 < w := hw w (List.mem_cons_self _ _)
    have hy' : t + w = y := by simpa using hy
    rw [← hy']; linarith

theorem bounds_pairwise (t : ℚ) (ws : List ℚ) (hw : ∀ w ∈ ws, 0 < w) :
    (bounds t ws).Pairwise (· < ·) :=
  List.chain'_iff_pairwise.mp (bounds_chain t ws hw)

theorem bounds_getElem_succ (ws : List ℚ) :
    ∀ (t : ℚ) (i : ℕ) (b0 b1 w : ℚ), (bounds t ws)[i]? = some b0 →
    (bounds t ws)[i + 1]? = some b1 → ws[i]? = some w → b1 = b0 + w := by
  induction ws with
  | nil => intro t i b0 b1 w _ _ hw; simp at hw
  | cons x ws ih =>
    intro t i b0 b1 w h0 h1 hw
    cases i with
    | zero =>
      simp only [bounds, List.getElem?_cons_zero, Option.some.injEq] at h0 hw
      rw [bounds] at h1
      rw [List.getElem?_cons_succ, bounds_getElem_zero, Option.some.injEq] at h1
      rw [← h0, ← h1, ← hw]
    | succ i =>
      rw [bounds, List.getElem?_cons_succ] at h0 h1
      rw [List.getElem?_cons_succ] at hw
      exact ih (t + x) i b0 b1 w h0 h1 hw

/-! The floor query: characterization over a sorted index. -/

theorem le_getLast_of_pairwise {β : Type} {l : List (F64 × β)}
    (hs : l.Pairwise (fun p q => p.1 < q.1)) {q : F64 × β} (hq : l.getLast? = some q)
    {p : F64 × β} (hp : p ∈ l) : p.1 ≤ q.1 := by
  induction l with
  | nil => simp at hq
  | cons x rest ih =>
    rcases List.mem_cons.mp hp with h | h
    · subst h
      cases rest with
      | nil =>
        have hq' : q = p := by simpa using hq.symm
        rw [hq']
      | cons y rest' =>
        rw [List.getLast?_cons_cons] at hq
        have hq' : q ∈ y :: rest' := List.mem_of_getLast?_eq_some hq
        exact ((List.pairwise_cons.mp hs).1 q hq').le
    · cases rest with
      | nil => simp at h
      | cons y rest' =>
        rw [List.getLast?_cons_cons] at hq
        exact ih (List.pairwise_cons.mp hs).2 hq h

theorem closest_key_below_spec {β : Type} (tree : List (F64 × β))
    (hs : tree.Pairwise (fun p q => p.1 < q.1)) (target : F64) :
    (closest_key_below tree target = none ↔ ∀ k ∈ tree.map Prod.fst, target < k)
    ∧ ∀ k, closest_key_below tree target = some k ↔
        (k ∈ tree.map Prod.fst ∧ k ≤ target ∧
         ∀ k' ∈ tree.map Prod.fst, k' ≤ target → k' ≤ k) := by
  constructor
  · unfold closest_key_below
    rw [Option.map_eq_none', List.getLast?_eq_none_iff, List.filter_eq_nil_iff]
    constructor
    · intro h k hk
      obtain ⟨p, hp, hpk⟩ := List.mem_map.mp hk
      have hnp := h p hp
      simp only [decide_eq_true_eq] at hnp
      rw [← hpk]
      exact not_le.mp hnp
    · intro h p hp
      simp only [decide_eq_true_eq]
      exact not_le.mpr (h p.1 (List.mem_map_of_mem _ hp))
  · intro k
    constructor
    · intro h
      unfold closest_key_below at h
      obtain ⟨q, hq, hqk⟩ := Option.map_eq_some'.mp h
      have hqf : q ∈ tree.filter (fun p => decide (p.1 ≤ target)) :=
        List.mem_of_getLast?_eq_some hq
      have hqt := List.mem_filter.mp hqf
      refine ⟨hqk ▸ List.mem_map_of_mem _ hqt.1, hqk ▸ (by simpa using hqt.2), ?_⟩
      intro k' hk' hk'le
      obtain ⟨p', hp', hpk'⟩ := List.mem_map.mp hk'
      have hp'f : p' ∈ tree.filter (fun p => decide (p.1 ≤ target)) :=
        List.mem_filter.mpr ⟨hp', by simp [hpk', hk'le]⟩
      have hle := le_getLast_of_pairwise (hs.filter _) hq hp'f
      rw [hpk'] at hle
      rw [← hqk]
      exact hle
    · rintro ⟨hkmem, hkle, hmax⟩
      obtain ⟨p, hp, hpk⟩ := List.mem_map.mp hkmem
      have hpf : p ∈ tree.filter (fun p => decide (p.1 ≤ target)) :=
        List.mem_filter.mpr ⟨hp, by simp [hpk, hkle]⟩
      rcases hlast : (tree.filter (fun p => decide (p.1 ≤ target))).getLast? with _ | q
      · rw [List.getLast?_eq_none_iff] at hlast
        rw [hlast] at hpf
        simp at hpf
      · have hqf := List.mem_of_getLast?_eq_some hlast
        have hqt := List.mem_filter.mp hqf
        have h1 : q.1 ≤ k := hmax q.1 (List.mem_map_of_mem _ hqt.1) (by simpa using hqt.2)
        have h2 : k ≤ q.1 := hpk ▸ le_getLast_of_pairwise (hs.filter _) hlast hpf
        unfold closest_key_below
        rw [hlast]
        simp [le_antisymm h1 h2]

theorem closest_key_below_mem {β : Type} (tree : List (F64 × β))
    (hs : tree.Pairwise (fun p q => p.1 < q.1)) (target : F64)
    (hex : ∃ p ∈ tree, p.1 ≤ target) :
    ∃ k, closest_key_below tree target = some k ∧ k ∈ tree.map Prod.fst := by
  rcases h : closest_key_below tree target with _ | k
  · obtain ⟨p, hp, hple⟩ := hex
    have := (closest_key_below_spec tree hs target).1.mp h p.1 (List.mem_map_of_mem _ hp)
    exact absurd hple (not_le.mpr this)
  · exact ⟨k, rfl, (((closest_key_below_spec tree hs target).2 k).mp h).1⟩

/-! Facts about built distributions. -/

theorem wts_pos (l : List (T × ℚ)) (hw : ∀ p ∈ l, 0 < p.2) : ∀ w ∈ wts l, 0 < w := by
  intro w hwm
  obtain ⟨p, hp, hpw⟩ := List.mem_map.mp hwm
  exact hpw ▸ hw p hp

theorem wts_ne_nil (l : List (T × ℚ)) (hl : l ≠ []) : wts l ≠ [] := by
  simpa [wts] using hl

theorem builtD_keys_pairwise (l : List (T × ℚ)) (hw : ∀ p ∈ l, 0 < p.2) :
    ((builtD l).distro.map Prod.fst).Pairwise (· < ·) := by
  show ((cumDistro 0 l).map Prod.fst).Pairwise (· < ·)
  rw [cumDistro_map_fst, List.pairwise_map]
  have hp : ((bounds 0 (wts l)).dropLast).Pairwise (· < ·) :=
    List.Pairwise.sublist (List.dropLast_sublist _) (bounds_pairwise 0 (wts l) (wts_pos l hw))
  exact hp.imp (fun h => fin_lt_fin.mpr h)

theorem builtD_sorted (l : List (T × ℚ)) (hw : ∀ p ∈ l, 0 < p.2) :
    (builtD l).distro.Pairwise (fun p q => p.1 < q.1) := by
  have h := builtD_keys_pairwise l hw
  rwa [List.pairwise_map] at h

theorem builtD_head_key (l : List (T × ℚ)) (hl : l ≠ []) :
    ((builtD l).distro.map Prod.fst).head? = some (F64.fin 0) := by
  cases l with
  | nil => exact absurd rfl hl
  | cons q rest =>
    obtain ⟨v, w⟩ := q
    simp [builtD, cumDistro]

theorem builtD_zero_mem (l : List (T × ℚ)) (hl : l ≠ []) :
    ∃ p ∈ (builtD l).distro, p.1 = F64.fin 0 := by
  cases l with
  | nil => exact absurd rfl hl
  | cons q rest =>
    obtain ⟨v, w⟩ := q
    exact ⟨(F64.fin 0, v), by simp [builtD, cumDistro], rfl⟩

theorem builtD_total_pos (l : List (T × ℚ)) (hw : ∀ p ∈ l, 0 < p.2) (hl : l ≠ []) :
    flt (F64.fin 0) (builtD l).total_weight = true := by
  show flt (F64.fin 0) (F64.fin (wts l).sum) = true
  simp only [flt, decide_eq_true_eq]
  exact List.sum_pos _ (wts_pos l hw) (wts_ne_nil l hl)

theorem random_pick_ok (l : List (T × ℚ)) (hw : ∀ p ∈ l, 0 < p.2) (hl : l ≠ [])
    (r : ℚ) (hr0 : 0 ≤ r) :
    ∃ k v, closest_key_below (builtD l).distro (F64.fin r) = some k
      ∧ mapFind (builtD l).distro k = some v
      ∧ random_pick (builtD l) r = PickResult.ok v := by
  obtain ⟨p0, hp0, hp0k⟩ := builtD_zero_mem l hl
  have hex : ∃ p ∈ (builtD l).distro, p.1 ≤ F64.fin r := by
    refine ⟨p0, hp0, ?_⟩
    rw [hp0k]
    exact fin_le_fin.mpr hr0
  obtain ⟨k, hk, hkmem⟩ := closest_key_below_mem _ (builtD_sorted l hw) _ hex
  obtain ⟨v, hv⟩ := mapFind_some_of_mem_keys _ k hkmem
  refine ⟨k, v, hk, hv, ?_⟩
  rw [random_pick, if_pos (builtD_total_pos l hw hl)]
  simp only [hk, hv]

theorem foldl_fadd_fin (ws : List ℚ) :
    ∀ t : ℚ, ws.foldl (fun acc w => fadd acc (F64.fin w)) (F64.fin t) = F64.fin (t + ws.sum) := by
  induction ws with
  | nil => intro t; simp
  | cons w ws ih =>
    intro t
    rw [List.foldl_cons]
    have hstep : fadd (F64.fin t) (F64.fin w) = F64.fin (t + w) := rfl
    rw [hstep, ih (t + w), List.sum_cons]
    exact congrArg F64.fin (by ring)

/-! The exclusion rebuild. -/

theorem withoutFrom_filter (removals : List T) (l : List (T × F64)) :
    ∀ d, withoutFrom removals l d = addAll d (l.filter (fun p => !(removals.contains p.1))) := by
  induction l with
  | nil => intro d; rfl
  | cons p rest ih =>
    intro d
    obtain ⟨v, w⟩ := p
    by_cases hc : removals.contains v
    · simp only [withoutFrom, hc, if_true, List.filter_cons]
      simp only [hc, Bool.not_true, Bool.false_eq_true, if_false]
      exact ih d
    · simp only [withoutFrom, hc, if_false, List.filter_cons]
      simp only [eq_false_of_ne_true hc, Bool.not_false, if_true, addAll]
      cases h : add d v w with
      | none => simp
      | some d' => exact ih d'

theorem without_eq_buildList (d : Distribution T) (removals : List T) :
    without d removals = buildList (d.originals.filter (fun p => !(removals.contains p.1))) := by
  rw [without, buildList, withoutFrom_filter]

theorem liftEntries_filter (l : List (T × ℚ)) (removals : List T) :
    (liftEntries l).filter (fun p => !(removals.contains p.1)) =
      liftEntries (l.filter (fun p => !(removals.contains p.1))) := by
  induction l with
  | nil => rfl
  | cons p rest ih =>
    obtain ⟨v, w⟩ := p
    by_cases hc : removals.contains v
    · simp only [liftEntries, List.map_cons, List.filter_cons, hc, Bool.not_true,
        Bool.false_eq_true, if_false] at ih ⊢
      exact ih
    · simp only [liftEntries, List.map_cons, List.filter_cons, eq_false_of_ne_true hc,
        Bool.not_false, if_true, List.map_cons, List.cons.injEq, true_and] at ih ⊢
      exact ih

theorem addAll_some :
    ∀ (l : List (T × F64)), (∀ p ∈ l, fgt p.2 (F64.fin 0) = true) →
    ∀ d : Distribution T, ∃ d', addAll d l = some d' := by
  intro l
  induction l with
  | nil => intro _ d; exact ⟨d, rfl⟩
  | cons p rest ih =>
    intro hw d
    obtain ⟨v, w⟩ := p
    have h := hw (v, w) (List.mem_cons_self _ _)
    simp only [addAll, add, h, if_true]
    exact ih (fun q hq => hw q (List.mem_cons_of_mem _ hq)) _

theorem oMap_weights_pos :
    ∀ (l : List (T × ℚ)), (∀ p ∈ l, 0 < p.2) →
    ∀ (init : List (T × F64)), (∀ p ∈ init, fgt p.2 (F64.fin 0) = true) →
    ∀ p ∈ l.foldl (fun m q => mapInsert m q.1 (F64.fin q.2)) init, fgt p.2 (F64.fin 0) = true := by
  intro l
  induction l with
  | nil => intro _ init hinit p hp; exact hinit p hp
  | cons q rest ih =>
    intro hw init hinit p hp
    simp only [List.foldl_cons] at hp
    refine ih (fun x hx => hw x (List.mem_cons_of_mem _ hx)) _ ?_ p hp
    intro x hx
    rcases mem_mapInsert _ _ _ _ hx with h | h
    · rw [h]
      simp only [fgt, decide_eq_true_eq]
      exact hw q (List.mem_cons_self _ _)
    · exact hinit x h

theorem without_builtD_some (l : List (T × ℚ)) (hw : ∀ p ∈ l, 0 < p.2)
    (removals : List T) : ∃ Dr, without (builtD l) removals = some Dr := by
  rw [without_eq_buildList, buildList]
  refine addAll_some _ ?_ _
  intro p hp
  have hp' : p ∈ (builtD l).originals := List.mem_of_mem_filter hp
  exact oMap_weights_pos l hw [] (by simp) p hp'

theorem mapFind_oMap_iff (l : List (T × ℚ)) (hnd : (l.map Prod.fst).Nodup)
    (v : T) (w : ℚ) :
    mapFind (oMap l) v = some (F64.fin w) ↔ (v, w) ∈ l := by
  constructor
  · intro h
    by_cases hv : v ∈ l.map Prod.fst
    · obtain ⟨p, hp, hpv⟩ := List.mem_map.mp hv
      obtain ⟨v0, w0⟩ := p
      simp only at hpv
      subst hpv
      have hfind := mapFind_foldInsert_mem v0 w0 l [] hnd hp
      rw [oMap] at h
      rw [hfind] at h
      have hww : w0 = w := F64.fin.inj (Option.some.inj h)
      subst hww
      exact hp
    · rw [oMap, mapFind_foldInsert_notmem l [] v hv] at h
      simp [mapFind] at h
  · intro h
    exact mapFind_foldInsert_mem v w l [] hnd h

theorem withoutCallFrom_eq (removals : List T) (l : List (T × F64)) :
    ∀ (s res : Distribution T),
    withoutCallFrom removals l (s, res) = (withoutFrom removals l res).map (fun r => (s, r)) := by
  induction l with
  | nil => intro s res; rfl
  | cons p rest ih =>
    intro s res
    obtain ⟨v, w⟩ := p
    by_cases hc : removals.contains v
    · simp only [withoutCallFrom, withoutFrom, hc, if_true]
      exact ih s res
    · simp only [withoutCallFrom, withoutFrom, hc, if_false]
      cases h : add res v w with
      | none => simp
      | some r => exact ih s r

theorem mapFind_mem [LinearOrder κ] (l : List (κ × α)) (k : κ) (x : α)
    (h : mapFind l k = some x) : ∃ p ∈ l, p.2 = x := by
  induction l with
  | nil => simp [mapFind] at h
  | cons q rest ih =>
    obtain ⟨k0, v0⟩ := q
    rw [mapFind] at h
    by_cases hk : k = k0
    · rw [if_pos hk] at h
      exact ⟨(k0, v0), List.mem_cons_self _ _, Option.some.inj h⟩
    · rw [if_neg hk] at h
      obtain ⟨p, hp, hpx⟩ := ih h
      exact ⟨p, List.mem_cons_of_mem _ hp, hpx⟩

theorem bind_add_eq_buildList (v : T) (w1 w2 : F64) :
    (add (Distribution.new : Distribution T) v w1).bind (fun d => add d v w2)
      = buildList [(v, w1), (v, w2)] := by
  rw [buildList]
  cases h : add (Distribution.new : Distribution T) v w1 with
  | none => simp [addAll, h]
  | some d =>
    simp only [addAll, h, Option.some_bind]
    cases h2 : add d v w2 with
    | none => simp [addAll, h2]
    | some d' => simp [addAll, h2]

/-! Claim theorems. -/

/-- C3: after any sequence of `add` calls with strictly positive weights,
the Cumulative Index keys are pairwise distinct and strictly increasing in
insertion order, the smallest key present is 0 once at least one item has
been added, and the index partitions `[0, total_weight)` into contiguous
half-open intervals, one per insertion in insertion order, where interval
`i` has length equal to the weight given at insertion `i`. -/
theorem C3_thm (l : List (T × ℚ)) (hw : ∀ p ∈ l, 0 < p.2) : cumulativeIndexInv l := by
  refine ⟨buildList_builtD l hw, builtD_keys_pairwise l hw, builtD_head_key l,
    cumDistro_map_fst 0 l, rfl, ?_,
    fun i b0 b1 w h0 h1 hw' => bounds_getElem_succ (wts l) 0 i b0 b1 w h0 h1 hw'⟩
  simpa using bounds_getLast? 0 (wts l)

/-- C3 witness: the invariants instantiated on the two-entry build
`[(0, 1), (1, 2)]`. -/
theorem C3_witness :
    (∀ p ∈ [((0 : ℕ), (1 : ℚ)), (1, 2)], 0 < p.2)
    ∧ cumulativeIndexInv [((0 : ℕ), (1 : ℚ)), (1, 2)] :=
  ⟨by decide, C3_thm _ (by decide)⟩

/-- C7: after all insertions, `total_weight` equals the insertion-order
`fadd`-fold of the inserted weights, which in this exact-arithmetic model of
`f64` equals the rational sum of the weights. -/
theorem C7_thm (l : List (T × ℚ)) (hw : ∀ p ∈ l, 0 < p.2) : weightConservation l := by
  refine ⟨builtD l, buildList_builtD l hw, ?_, rfl⟩
  rw [foldl_fadd_fin (wts l) 0]
  exact congrArg F64.fin (zero_add _).symm

/-- C7 witness: weight conservation instantiated on `[(0, 1), (1, 2)]`. -/
theorem C7_witness :
    (∀ p ∈ [((0 : ℕ), (1 : ℚ)), (1, 2)], 0 < p.2)
    ∧ weightConservation [((0 : ℕ), (1 : ℚ)), (1, 2)] :=
  ⟨by decide, C7_thm _ (by decide)⟩

/-- C2: for every distribution whose originals table records the entries of
`ol` (each weight positive, values distinct as keys of a map), `without`
returns a brand-new distribution built through the ordinary insertion path
from exactly the non-excluded entries in table order with their recorded
weights; its total weight is the sum of the retained weights, and its
originals table holds exactly the retained pairs. -/
theorem C2_thm (d : Distribution T) (ol : List (T × ℚ)) (removals : List T)
    (ho : d.originals = liftEntries ol)
    (hw : ∀ p ∈ ol, 0 < p.2)
    (hs : ol.Pairwise (fun p q => p.1 < q.1)) :
    withoutSpec d ol removals := by
  have hfw : ∀ p ∈ ol.filter (fun p => !(removals.contains p.1)), 0 < p.2 :=
    fun p hp => hw p (List.mem_of_mem_filter hp)
  have hbuild : without d removals
      = buildList (liftEntries (ol.filter (fun p => !(removals.contains p.1)))) := by
    rw [without_eq_buildList, ho, liftEntries_filter]
  have hnd : ((ol.filter (fun p => !(removals.contains p.1))).map Prod.fst).Nodup := by
    have hp : (ol.filter (fun p => !(removals.contains p.1))).Pairwise
        (fun p q => p.1 < q.1) := hs.filter _
    exact (List.pairwise_map.mpr hp).imp (fun h => ne_of_lt h)
  refine ⟨hbuild, ?_, cumDistro_map_snd 0 _, rfl, ?_⟩
  · rw [hbuild, buildList_builtD _ hfw]
  · intro v w
    exact mapFind_oMap_iff _ hnd v w

/-- C2 witness: the exclusion contract instantiated on a distribution whose
originals are `[(0, 1), (1, 2)]`, excluding value `0`. -/
theorem C2_witness :
    (({ distro := [], total_weight := F64.fin 0,
        originals := liftEntries [((0 : ℕ), (1 : ℚ)), (1, 2)] } :
          Distribution ℕ).originals = liftEntries [((0 : ℕ), (1 : ℚ)), (1, 2)]
      ∧ (∀ p ∈ [((0 : ℕ), (1 : ℚ)), (1, 2)], 0 < p.2)
      ∧ ([((0 : ℕ), (1 : ℚ)), (1, 2)]).Pairwise (fun p q => p.1 < q.1))
    ∧ withoutSpec
        ({ distro := [], total_weight := F64.fin 0,
           originals := liftEntries [((0 : ℕ), (1 : ℚ)), (1, 2)] } : Distribution ℕ)
        [((0 : ℕ), (1 : ℚ)), (1, 2)] [0] :=
  ⟨⟨rfl, by decide, by decide⟩, C2_thm _ _ _ rfl (by decide) (by decide)⟩

/-- C4: when the same value is added twice with positive weights `w1` then
`w2`, the originals table retains only the most recent weight `w2` while the
Cumulative Index retains both insertions as separate interval owners, so
every in-range draw returns the value (sampling honors `w1 + w2`) but a
`without` rebuild that keeps the value re-adds it with only weight `w2`. -/
theorem C4_thm (v : T) (w1 w2 : ℚ) (h1 : 0 < w1) (h2 : 0 < w2) : addTwiceSpec v w1 w2 := by
  have hposl : ∀ p ∈ [(v, w1), (v, w2)], 0 < p.2 := by
    intro p hp
    rcases List.mem_cons.mp hp with h | h
    · rw [h]; exact h1
    · rw [List.mem_singleton.mp h]; exact h2
  have hsum : (wts [(v, w1), (v, w2)]).sum = w1 + w2 := by simp [wts]
  have hdistro : (builtD [(v, w1), (v, w2)]).distro = [(F64.fin 0, v), (F64.fin w1, v)] := by
    simp [builtD, cumDistro]
  have horig : (builtD [(v, w1), (v, w2)]).originals = [(v, F64.fin w2)] := by
    simp [builtD, oMap, mapInsert, lt_irrefl]
  have htot : (builtD [(v, w1), (v, w2)]).total_weight = F64.fin (w1 + w2) := by
    simp [builtD, hsum]
  refine ⟨builtD [(v, w1), (v, w2)], ?_, hdistro, horig, htot, ?_, ?_⟩
  · have hb : liftEntries [(v, w1), (v, w2)] = [(v, F64.fin w1), (v, F64.fin w2)] := rfl
    rw [bind_add_eq_buildList, ← hb, buildList_builtD _ hposl]
  · intro r hr0 hrlt
    obtain ⟨k, x, hk, hx, hpick⟩ := random_pick_ok [(v, w1), (v, w2)] hposl (by simp) r hr0
    obtain ⟨p, hp, hpx⟩ := mapFind_mem _ _ _ hx
    rw [hdistro] at hp
    have hxv : x = v := by
      rcases List.mem_cons.mp hp with h | h
      · rw [← hpx, h]
      · rw [← hpx, List.mem_singleton.mp h]
    rw [hxv] at hpick
    exact hpick
  · intro removals hcv
    rw [without_eq_buildList, horig]
    have hv : v ∉ removals := by simpa using hcv
    have hfilter : ([(v, F64.fin w2)]).filter (fun p => !(removals.contains p.1))
        = [(v, F64.fin w2)] := by
      simp [List.filter_cons, hv]
    rw [hfilter]
    have hone : ∀ p ∈ [(v, w2)], 0 < p.2 := by
      intro p hp
      rw [List.mem_singleton.mp hp]
      exact h2
    have hbl := buildList_builtD [(v, w2)] hone
    simp only [liftEntries, List.map_cons, List.map_nil] at hbl
    rw [hbl]
    simp [builtD, cumDistro, oMap, mapInsert, wts]

/-- C4 witness: the double-insertion behavior instantiated at value 0 with
weights 1 then 2. -/
theorem C4_witness :
    ((0 : ℚ) < 1 ∧ (0 : ℚ) < 2) ∧ addTwiceSpec (0 : ℕ) 1 2 :=
  ⟨⟨by norm_num, by norm_num⟩, C4_thm 0 1 2 (by norm_num) (by norm_num)⟩

/-- C9: on a distribution built from at least one positively weighted item
(so the Cumulative Index is non-empty and `total_weight` is positive), for
every in-range draw the floor query returns a key and the index lookup at
that key returns a value — both `unwrap` calls in `random_pick` are
unreachable — and neither the floor query nor the exclusion rebuild ever
produces an error. -/
theorem C9_thm (l : List (T × ℚ)) (hw : ∀ p ∈ l, 0 < p.2) (hl : l ≠ []) : samplingSafe l := by
  refine ⟨builtD l, buildList_builtD l hw, ?_, builtD_total_pos l hw hl, ?_,
    without_builtD_some l hw⟩
  · obtain ⟨p0, hp0, _⟩ := builtD_zero_mem l hl
    exact List.ne_nil_of_mem hp0
  · intro r hr0 _
    exact random_pick_ok l hw hl r hr0

/-- C9 witness: sampling safety instantiated on the one-entry build
`[(0, 1)]`. -/
theorem C9_witness :
    ((∀ p ∈ [((0 : ℕ), (1 : ℚ))], 0 < p.2) ∧ [((0 : ℕ), (1 : ℚ))] ≠ [])
    ∧ samplingSafe [((0 : ℕ), (1 : ℚ))] :=
  ⟨⟨by decide, by decide⟩, C9_thm _ (by decide) (by decide)⟩

/-- C1 counterexample: on an empty distribution (`total_weight = 0`),
`random_pick` does not return an EmptyDistribution error — no such error
exists in the code — but reaches the `genRangePanic` outcome, the panic
raised inside `rng.gen_range(0.0..0.0)` on the empty range: the code does
attempt the random draw and panics there. -/
theorem C1_counterexample :
    random_pick (Distribution.new : Distribution ℕ) 0 = PickResult.genRangePanic := by
  decide

/-- C1 (amended): on every empty distribution `random_pick` panics while
attempting the random draw (`gen_range` on the empty range
`0.0..total_weight`) instead of failing with an EmptyDistribution error;
on every distribution with at least one (positively weighted) item added,
`random_pick` succeeds for every in-range draw. -/
theorem C1_thm :
    (∀ r : ℚ, random_pick (Distribution.new : Distribution T) r = PickResult.genRangePanic)
    ∧ ∀ (l : List (T × ℚ)), (∀ p ∈ l, 0 < p.2) → l ≠ [] → pickTotality l := by
  constructor
  · intro r
    simp [random_pick, Distribution.new, flt]
  · intro l hw hl
    refine ⟨builtD l, buildList_builtD l hw, ?_⟩
    intro r hr0 _
    obtain ⟨k, x, _, _, hpick⟩ := random_pick_ok l hw hl r hr0
    exact ⟨x, hpick⟩

/-- C1 witness: totality of `random_pick` instantiated on the one-entry
build `[(0, 2)]`. -/
theorem C1_witness :
    ((∀ p ∈ [((0 : ℕ), (2 : ℚ))], 0 < p.2) ∧ [((0 : ℕ), (2 : ℚ))] ≠ [])
    ∧ pickTotality [((0 : ℕ), (2 : ℚ))] :=
  ⟨⟨by decide, by decide⟩, C1_thm.2 _ (by decide) (by decide)⟩

/-- C6: for every sorted index and target, `closest_key_below` returns the
greatest key that is at most the target, or none when no such key exists;
in particular, on the index with thresholds 0.5, 1.0, 3.5, 4.8: querying
0.6 gives 0.5, querying 1.0 gives 1.0, querying 1.00001 gives 1.0, querying
10.0 gives 4.8, querying 4.1 gives 3.5, querying 3.4 gives 1.0, and
querying anything below 0.5 gives none. -/
theorem C6_thm :
    (∀ {β : Type} (tree : List (F64 × β)), tree.Pairwise (fun p q => p.1 < q.1) →
        ∀ target : F64, floorQuerySpec tree target)
    ∧ closest_key_below testTree (F64.fin (3/5 : ℚ)) = some (F64.fin (1/2 : ℚ))
    ∧ closest_key_below testTree (F64.fin 1) = some (F64.fin 1)
    ∧ closest_key_below testTree (F64.fin (100001/100000 : ℚ)) = some (F64.fin 1)
    ∧ closest_key_below testTree (F64.fin 10) = some (F64.fin (24/5 : ℚ))
    ∧ closest_key_below testTree (F64.fin (41/10 : ℚ)) = some (F64.fin (7/2 : ℚ))
    ∧ closest_key_below testTree (F64.fin (17/5 : ℚ)) = some (F64.fin 1)
    ∧ ∀ t : ℚ, t < 1/2 → closest_key_below testTree (F64.fin t) = none := by
  refine ⟨fun tree hs target => closest_key_below_spec tree hs target,
    by norm_num [closest_key_below, testTree, List.filter_cons, decide_fin_le],
    by norm_num [closest_key_below, testTree, List.filter_cons, decide_fin_le],
    by norm_num [closest_key_below, testTree, List.filter_cons, decide_fin_le],
    by norm_num [closest_key_below, testTree, List.filter_cons, decide_fin_le],
    by norm_num [closest_key_below, testTree, List.filter_cons, decide_fin_le],
    by norm_num [closest_key_below, testTree, List.filter_cons, decide_fin_le], ?_⟩
  intro t ht
  apply (closest_key_below_spec testTree testTree_sorted (F64.fin t)).1.mpr
  intro k hk
  simp only [testTree, List.map_cons, List.map_nil, List.mem_cons,
    List.not_mem_nil, or_false] at hk
  rcases hk with h | h | h | h <;>
    (rw [h]; exact fin_lt_fin.mpr (by linarith))

/-- C6 witness: the floor-query contract applied to the concrete test index
at target 1. -/
theorem C6_witness :
    testTree.Pairwise (fun p q => p.1 < q.1) ∧ floorQuerySpec testTree (F64.fin 1) :=
  ⟨testTree_sorted, C6_thm.1 testTree testTree_sorted (F64.fin 1)⟩

/-- C5 counterexample: the NaN weight fails the assert (`add` panics) even
though `NaN ≤ 0` is false in the `f64` comparison, so "fails if and only if
weight ≤ 0" does not hold for every weight. -/
theorem C5_counterexample :
    add (Distribution.new : Distribution ℕ) 0 F64.nan = none
    ∧ fle F64.nan (F64.fin 0) = false :=
  ⟨rfl, rfl⟩

/-- C5 (amended): `add` fails fatally exactly when `weight > 0.0` does not
hold as an `f64` comparison; for non-NaN weights this coincides with
`weight ≤ 0`, so every weight that is zero or negative fails and every
weight greater than zero succeeds, but the NaN weight also fails while
satisfying neither `weight > 0` nor `weight ≤ 0`. -/
theorem C5_thm (d : Distribution T) (v : T) (w : F64) :
    (add d v w = none ↔ fgt w (F64.fin 0) = false)
    ∧ ((∃ d', add d v w = some d') ↔ fgt w (F64.fin 0) = true)
    ∧ (∀ q : ℚ, q ≤ 0 → add d v (F64.fin q) = none)
    ∧ ∀ q : ℚ, 0 < q → ∃ d', add d v (F64.fin q) = some d' := by
  refine ⟨?_, ?_, ?_, ?_⟩
  · cases hf : fgt w (F64.fin 0) <;> simp [add, hf]
  · cases hf : fgt w (F64.fin 0) <;> simp [add, hf]
  · intro q hq
    have hn : ¬(0 < q) := not_lt.mpr hq
    simp [add, fgt, hn]
  · intro q hq
    have ht : fgt (F64.fin q) (F64.fin 0) = true := by
      simp [fgt, hq]
    exact ⟨_, by rw [add, if_pos ht]⟩

/-- C5 witness: weight 0 is rejected by `add`. -/
theorem C5_witness :
    (0 : ℚ) ≤ 0 ∧ add (Distribution.new : Distribution ℕ) 0 (F64.fin 0) = none :=
  ⟨le_refl 0, (C5_thm Distribution.new 0 (F64.fin 0)).2.2.1 0 (le_refl 0)⟩

/-- C10: a NaN weight satisfies neither `weight > 0` nor `weight ≤ 0`, and
`add` with a NaN weight fails the positivity assert; `add` succeeds exactly
when `weight > 0.0` holds as an `f64` comparison, so a NaN weight can never
be inserted. -/
theorem C10_thm :
    (∀ (d : Distribution T) (v : T), add d v F64.nan = none)
    ∧ (∀ (d : Distribution T) (v : T) (w : F64),
        (∃ d', add d v w = some d') ↔ fgt w (F64.fin 0) = true)
    ∧ fgt F64.nan (F64.fin 0) = false
    ∧ fle F64.nan (F64.fin 0) = false := by
  refine ⟨fun d v => rfl, ?_, rfl, rfl⟩
  intro d v w
  cases hf : fgt w (F64.fin 0) <;> simp [add, hf]

/-- C10 witness: the NaN rejection applied to a concrete distribution. -/
theorem C10_witness : add (Distribution.new : Distribution ℕ) 0 F64.nan = none :=
  C10_thm.1 Distribution.new 0

/-- C8: a `without` call never mutates the receiver: in the state-threaded
reading of the loop the receiver component comes back unchanged (total
weight, Cumulative Index and Original-Weights Table all intact) while the
result is exactly the rebuilt distribution. -/
theorem C8_thm (d : Distribution T) (removals : List T) :
    without_call d removals = (without d removals).map (fun r => (d, r))
    ∧ ∀ st, without_call d removals = some st →
        st.1.total_weight = d.total_weight ∧ st.1.distro = d.distro
          ∧ st.1.originals = d.originals := by
  have h : without_call d removals = (without d removals).map (fun r => (d, r)) := by
    rw [without_call, without, withoutCallFrom_eq]
  refine ⟨h, ?_⟩
  intro st hst
  rw [h] at hst
  obtain ⟨r0, _, hst'⟩ := Option.map_eq_some'.mp hst
  rw [← hst']
  exact ⟨rfl, rfl, rfl⟩

/-- C8 witness: the non-mutation statement applied to the empty receiver. -/
theorem C8_witness :
    without_call (Distribution.new : Distribution ℕ) []
      = some (Distribution.new, Distribution.new)
    ∧ ((Distribution.new : Distribution ℕ), (Distribution.new : Distribution ℕ)).1.total_weight
      = (Distribution.new : Distribution ℕ).total_weight :=
  ⟨by decide,
   ((C8_thm Distribution.new []).2 (Distribution.new, Distribution.new) (by decide)).1⟩

end DistSel
